import Mathlib

/-!
Shallow embedding of the NSET v6.0 tokenizer (`src/src/main.c`, with the
bigram model from `entropy.h`).  Machine integers are modelled as `Nat`
with explicit `% 2^w` where overflow matters; the C `while` loops are
modelled as fuel-indexed recursions where the fuel given at every call
site is provably at least the number of iterations the C loop performs,
so the fuelled function computes exactly the loop's result (the registry
probe loops can genuinely diverge; there the fuel semantics is made
precise by the termination theorems).  The float comparison
`calculate_surprise(...) > 5.0f` is the only part that is not shallowly
embeddable (floating point); the development is parameterised over the
Boolean outcome of that comparison (`sgt`), which is sound because the
model is only trained before the scan loop of one identifier and the
comparison is pure.
-/

/-- Size of the open-addressed registry table (`SEEN_TABLE_SIZE`). -/
def NTAB : Nat := 4194304

/-- ASCII `isspace` on a byte. -/
def isSpaceB (b : Nat) : Bool := b = 32 || (9 ≤ b && b ≤ 13)

/-- ASCII `isupper` on a byte. -/
def isUpperB (b : Nat) : Bool := 65 ≤ b && b ≤ 90

/-- ASCII `islower` on a byte. -/
def isLowerB (b : Nat) : Bool := 97 ≤ b && b ≤ 122

/-- ASCII `isdigit` on a byte. -/
def isDigitB (b : Nat) : Bool := 48 ≤ b && b ≤ 57

/-- ASCII `ispunct` on a byte. -/
def isPunctB (b : Nat) : Bool :=
  (33 ≤ b && b ≤ 47) || (58 ≤ b && b ≤ 64) || (91 ≤ b && b ≤ 96) || (123 ≤ b && b ≤ 126)

/-- ASCII `tolower` on a byte. -/
def tolowerB (b : Nat) : Nat := if 65 ≤ b && b ≤ 90 then b + 32 else b

/-- Byte of the memory-mapped source at index `i` (sources are indexed
in range by the parser contract; out-of-range reads default to 0). -/
def byteAt (src : List Nat) (i : Nat) : Nat := src.getD i 0

/-- The byte span `src[a .. a+b)`. -/
def srcSlice (src : List Nat) (a b : Nat) : List Nat := (src.drop a).take b

/-- Bytes of a Lean string literal (used only to write ASCII test data). -/
def strBytes (s : String) : List Nat := s.data.map (fun c => c.toNat)

/-- `murmur_hash`: FNV-1a over the case-folded bytes, 32-bit wrapping. -/
def murmurGo (h : Nat) : List Nat → Nat
  | [] => h
  | b :: bs => murmurGo ((h ^^^ tolowerB b) * 0x01000193 % 4294967296) bs

/-- `murmur_hash(key, len)` on the byte list `key`. -/
def murmur (bs : List Nat) : Nat := murmurGo 0x811c9dc5 bs

/-- `get_casing`: 0 lower, 1 capitalised, 2 all-upper, 3 mixed. -/
def getCasing (bs : List Nat) : Nat :=
  let caps := bs.countP (fun b => isUpperB b)
  if caps = 0 then 0
  else if caps = bs.length then 2
  else if caps = 1 ∧ isUpperB (bs.headD 0) then 1
  else 3

/-- `LOCKED_VOCAB`, in the exact (unsorted!) order of the C array. -/
def VOCAB : List (List Nat) :=
  (["auto", "break", "case", "char", "const", "continue", "default", "do",
    "double", "else", "enum", "extern", "float", "for", "goto", "if", "int",
    "long", "register", "return", "short", "signed", "sizeof", "static", "struct",
    "switch", "typedef", "union", "unsigned", "void", "volatile", "while",
    "define", "include", "ifdef", "ifndef", "endif",
    "printf", "malloc", "free", "size_t", "uint32_t", "uint8_t", "uint16_t",
    "NULL", "true", "false", "bool", "file", "path", "buffer", "length",
    "count", "offset", "data", "node", "tree", "parser", "cursor", "root"]).map strBytes

/-- C `strcmp` on NUL-terminated byte strings, with the end of the Lean
list playing the role of the terminating NUL (interior 0 bytes keep
their C meaning: comparison stops there). -/
def ccmp : List Nat → List Nat → Ordering
  | [], [] => Ordering.eq
  | [], y :: _ => if y = 0 then Ordering.eq else Ordering.lt
  | x :: _, [] => if x = 0 then Ordering.eq else Ordering.gt
  | x :: xs, y :: ys =>
    if x = y then (if x = 0 then Ordering.eq else ccmp xs ys)
    else if x < y then Ordering.lt else Ordering.gt

/-- The libc `bsearch` half-interval search (glibc and musl agree on this
algorithm) over `VOCAB` with comparator `vocab_cmp` = `strcmp(key, *elem)`.
The C array is NOT sorted, so this deterministic search can miss entries;
fuel 64 exceeds the iteration count (each step shrinks `u - l`, which
starts at 60). -/
def bsearchAux (key : List Nat) : Nat → Nat → Nat → Option Nat
  | 0, _, _ => none
  | fuel+1, l, u =>
    if l < u then
      let idx := (l + u) / 2
      match ccmp key (VOCAB.getD idx []) with
      | Ordering.lt => bsearchAux key fuel l idx
      | Ordering.gt => bsearchAux key fuel (idx + 1) u
      | Ordering.eq => some idx
    else none

/-- `is_word_locked(str, len)`: reject length ≥ 64, lowercase into a
buffer, binary-search the vocabulary. -/
def isWordLocked (bs : List Nat) : Bool :=
  if 64 ≤ bs.length then false
  else (bsearchAux (bs.map tolowerB) 64 0 VOCAB.length).isSome

/-- The bigram `EntropyModel` (counts matrix + per-first-byte totals). -/
structure EModel where
  counts : Nat → Nat → Nat
  totals : Nat → Nat

/-- `model_train_sequence`: bump `counts[a][b]` and `totals[a]` for every
adjacent byte pair; texts shorter than 2 bytes are a no-op. -/
def trainPairs (m : EModel) : List Nat → EModel
  | a :: b :: rest =>
    trainPairs
      { counts := fun x y => if x = a ∧ y = b then m.counts x y + 1 else m.counts x y,
        totals := fun x => if x = a then m.totals x + 1 else m.totals x } (b :: rest)
  | _ => m

/-- The all-zero model (`EntropyModel global_model = {0}`). -/
def model0 : EModel := { counts := fun _ _ => 0, totals := fun _ => 0 }

/-- One `NSET_Token` with its `meta` bitfield flattened.  3-bit fields
store their assigned value `% 8` (C bitfield truncation); all
assignments in the program stay below the width, so this is exact. -/
structure Token where
  rootId : Nat
  offset : Nat
  length : Nat
  ty : Nat
  casing : Nat
  preSpace : Bool
  preBreak : Bool
  hasJoiner : Bool
  depth : Nat
  hasSemi : Bool
  hasComma : Bool
  hasParen : Bool
  hasStar : Bool
  hasClose : Bool
deriving DecidableEq, Repr, Inhabited

/-- The registry: open-addressed table (empty-slot sentinel 0) plus the
append-only `nset_vocab.bin` log of records `(id, len, bytes)`. -/
structure Reg where
  table : Nat → Nat
  log : List (Nat × Nat × List Nat)

/-- The probe loop of `has_seen_id`: scan from `idx` while slots are
non-empty, reporting whether `id` was found.  `none` means the fuel ran
out, i.e. the C loop would still be running after `fuel` iterations. -/
def probeSeen (tbl : Nat → Nat) (id : Nat) : Nat → Nat → Option Bool
  | _, 0 => none
  | idx, fuel+1 =>
    if tbl idx = 0 then some false
    else if tbl idx = id then some true
    else probeSeen tbl id ((idx + 1) % NTAB) fuel

/-- `has_seen_id(id)` with fuel `NTAB` (enough whenever an empty slot
exists; see the termination theorem). -/
def hasSeenId (tbl : Nat → Nat) (id : Nat) : Option Bool :=
  probeSeen tbl id (id % NTAB) NTAB

/-- The insertion probe of `register_token`: find the first empty slot. -/
def probeFree (tbl : Nat → Nat) : Nat → Nat → Option Nat
  | _, 0 => none
  | idx, fuel+1 =>
    if tbl idx = 0 then some idx
    else probeFree tbl ((idx + 1) % NTAB) fuel

/-- `register_token(id, text, len)`: no-op when seen; otherwise insert
into the table and append one record with length clamped to 255.
(`vocab_file` is non-NULL whenever `main` runs tokenization.)  The
`none` fallbacks correspond to probe loops the C program would never
finish; see the termination theorem. -/
def registerToken (r : Reg) (id : Nat) (text : List Nat) (len : Nat) : Reg :=
  match hasSeenId r.table id with
  | some true => r
  | some false =>
    match probeFree r.table (id % NTAB) NTAB with
    | some idx =>
      let l := min len 255
      { table := fun j => if j = idx then id else r.table j,
        log := r.log ++ [(id, l, text.take l)] }
    | none => r
  | none => r

/-- Whole-process state threaded through tokenization: the arena (token
list + capacity), the registry and the bigram model. -/
structure St where
  arena : List Token
  cap : Nat
  reg : Reg
  model : EModel

/-- The whitespace lookahead of `arena_push`: first index `≥ pos` that is
not whitespace (or the end of the source).  Fuel `src.length` bounds the
iteration count of the C loop exactly. -/
def skipSpaces (src : List Nat) : Nat → Nat → Nat
  | _, 0 => 0
  | pos, fuel+1 =>
    if pos < src.length && isSpaceB (byteAt src pos) then skipSpaces src (pos + 1) fuel
    else pos

/-- The symbol-eater half of `arena_push`: absorb the next non-whitespace
byte (`;` `,` `(` `)` `*`) into the token's metadata bits. -/
def eatAdjust (src : List Nat) (t : Token) : Token :=
  let np := skipSpaces src (t.offset + t.length) src.length
  if np < src.length then
    let c := byteAt src np
    if c = 59 then { t with hasSemi := true }
    else if c = 44 then { t with hasComma := true }
    else if c = 40 then { t with hasParen := true }
    else if c = 41 then { t with hasClose := true }
    else if c = 42 then { t with hasStar := true }
    else t
  else t

/-- `arena_push`: drop when full; otherwise absorb punctuation bits,
register the token's id, and append. -/
def arenaPush (src : List Nat) (st : St) (t : Token) : St :=
  if st.cap ≤ st.arena.length then st
  else
    let t1 := eatAdjust src t
    { st with
      reg := registerToken st.reg t1.rootId (srcSlice src t1.offset t1.length) t1.length,
      arena := st.arena ++ [t1] }

/-- `arena->tokens[arena->count-1].meta.has_joiner = 1`. -/
def joinerize (t : Token) : Token := { t with hasJoiner := true }

/-- Set `has_joiner` on the last arena entry (the C code indexes
`count - 1`; on an empty arena that read is out of bounds, which cannot
be reached from `main` because `tokens_emitted > 0` implies a push). -/
def setLastJoiner : List Token → List Token
  | [] => []
  | [t] => [joinerize t]
  | t :: ts => t :: setLastJoiner ts

/-- Token built by the identifier segmenter for the fragment
`[start, stop)` (relative to the identifier at `offset`); `te` is
`tokens_emitted` at push time.  The loop fragments and the final tail
all use exactly this shape. -/
def segTok (src : List Nat) (offset depth : Nat) (pre : Bool) (start stop te : Nat) : Token :=
  { rootId := murmur (srcSlice src (offset + start) (stop - start)),
    offset := offset + start,
    length := stop - start,
    ty := 0,
    casing := getCasing (srcSlice src (offset + start) (stop - start)),
    preSpace := if te = 0 then pre else false,
    preBreak := false,
    hasJoiner := false,
    depth := depth % 8,
    hasSemi := false, hasComma := false, hasParen := false, hasStar := false, hasClose := false }

/-- Which rule ended a fragment emitted by the identifier segmenter
(ghost instrumentation; it does not influence the computation). -/
inductive Kind where
  | under
  | camel
  | entropy
  | tail
deriving DecidableEq, Repr

/-- Ghost record of one emitted fragment `[fstart, fstop)` and the rule
that ended it. -/
structure Frag where
  fstart : Nat
  fstop : Nat
  kind : Kind
deriving DecidableEq, Repr

/-- The soft-split decision of `process_identifier` at position `i` with
fragment start `start`: camel-case splits unconditionally; a positive
surprise signal splits only if the left fragment is locked or the
left/right length guards (≥ 4 / ≥ 3) hold. -/
def segSoftSplit (sq : Nat → Nat → Bool) (src : List Nat) (offset len start i : Nat) : Bool :=
  let cur := byteAt src (offset + i)
  let nxt := byteAt src (offset + i + 1)
  if isLowerB cur && isUpperB nxt then true
  else if sq cur nxt then
    isWordLocked (srcSlice src (offset + start) (i + 1 - start)) ||
      (4 ≤ i + 1 - start && 3 ≤ len - (i + 1))
  else false

/-- The scan loop of `process_identifier` (steps 3.A/3.B and the final
tail).  `sq cur next` is the Boolean outcome of
`calculate_surprise(&global_model, cur, next) > 5.0f` for the model as
trained before the loop (the model does not change during the loop).
Fuel `len - i` at every call makes the fuelled recursion compute exactly
the C `for` loop; called with `fuel = len`, `i = start = te = 0`.  In
the underscore branch, when a fragment was just pushed the counter
`tokens_emitted` has been incremented, so the `tokens_emitted > 0`
joiner update applies unconditionally there. -/
def segLoop (sq : Nat → Nat → Bool) (src : List Nat) (offset len depth : Nat) (pre : Bool) :
    Nat → Nat → Nat → Nat → St → St × List Frag
  | 0, _, start, te, st =>
    if start < len then
      (arenaPush src st (segTok src offset depth pre start len te), [⟨start, len, Kind.tail⟩])
    else (st, [])
  | fuel+1, i, start, te, st =>
    if byteAt src (offset + i) = 95 then
      if start < i then
        let st1 := arenaPush src st (segTok src offset depth pre start i te)
        let st2 := { st1 with arena := setLastJoiner st1.arena }
        let r := segLoop sq src offset len depth pre fuel (i + 1) (i + 1) (te + 1) st2
        (r.1, (⟨start, i, Kind.under⟩ : Frag) :: r.2)
      else
        let st2 := if 0 < te then { st with arena := setLastJoiner st.arena } else st
        segLoop sq src offset len depth pre fuel (i + 1) (i + 1) te st2
    else if i < len - 1 then
      if segSoftSplit sq src offset len start i then
        let st1 := arenaPush src st (segTok src offset depth pre start (i + 1) te)
        let r := segLoop sq src offset len depth pre fuel (i + 1) (i + 1) (te + 1) st1
        (r.1,
          (⟨start, i + 1,
            if isLowerB (byteAt src (offset + i)) && isUpperB (byteAt src (offset + i + 1)) then
              Kind.camel else Kind.entropy⟩ : Frag) :: r.2)
      else segLoop sq src offset len depth pre fuel (i + 1) start te st
    else segLoop sq src offset len depth pre fuel (i + 1) start te st

/-- The single token emitted for a locked word (note `casing` is left at
its zero initialisation). -/
def lockedTok (src : List Nat) (offset len depth : Nat) (pre : Bool) : Token :=
  { rootId := murmur (srcSlice src offset len),
    offset := offset, length := len, ty := 0, casing := 0,
    preSpace := pre, preBreak := false, hasJoiner := false, depth := depth % 8,
    hasSemi := false, hasComma := false, hasParen := false, hasStar := false, hasClose := false }

/-- `process_identifier`: locked short-circuit (one whole-span token,
casing left 0, then train), else train and scan.  `sgt` maps the trained
model to the surprise comparison outcome. -/
def processIdentifier (sgt : EModel → Nat → Nat → Bool) (st : St) (src : List Nat)
    (offset len depth : Nat) (pre : Bool) : St × List Frag :=
  if isWordLocked (srcSlice src offset len) then
    let st1 := arenaPush src st (lockedTok src offset len depth pre)
    ({ st1 with model := trainPairs st1.model (srcSlice src offset len) }, [])
  else
    let st1 := { st with model := trainPairs st.model (srcSlice src offset len) }
    segLoop (sgt st1.model) src offset len depth pre len 0 0 0 st1

/-- Mid fragment of the blob splitter (sets `type = 1` and
`depth = depth % 7`). -/
def blobMidTok (src : List Nat) (start d s e : Nat) : Token :=
  { rootId := murmur (srcSlice src (start + s) (e - s)),
    offset := start + s, length := e - s, ty := 1, casing := 0,
    preSpace := false, preBreak := false, hasJoiner := false, depth := d % 7 % 8,
    hasSemi := false, hasComma := false, hasParen := false, hasStar := false, hasClose := false }

/-- Tail fragment of the blob splitter.  NOTE: the C code sets only
`root_id`, `offset`, `length` and `type` here — `meta.depth` stays 0. -/
def blobTailTok (src : List Nat) (start len s : Nat) : Token :=
  { rootId := murmur (srcSlice src (start + s) (len - s)),
    offset := start + s, length := len - s, ty := 1, casing := 0,
    preSpace := false, preBreak := false, hasJoiner := false, depth := 0,
    hasSemi := false, hasComma := false, hasParen := false, hasStar := false, hasClose := false }

/-- The blob-splitting loop of `main` (comments, string literals,
preprocessor nodes, macro blobs): split the leaf text on whitespace or
punctuation.  Fuel `len - i`; called with `fuel = len`, `i = sub = 0`. -/
def blobLoop (src : List Nat) (start len d : Nat) : Nat → Nat → Nat → St → St
  | 0, _, sub, st =>
    if sub < len then arenaPush src st (blobTailTok src start len sub) else st
  | fuel+1, i, sub, st =>
    let c := byteAt src (start + i)
    if isSpaceB c || isPunctB c then
      let st1 := if sub < i then arenaPush src st (blobMidTok src start d sub i) else st
      blobLoop src start len d fuel (i + 1) (i + 1) st1
    else blobLoop src start len d fuel (i + 1) sub st

/-- A leaf of the concrete syntax tree, with the `depth` the traversal
counter has when the cursor visits it (the parser is an external
collaborator; the driver is verified over every possible leaf stream). -/
structure Leaf where
  ty : String
  start : Nat
  stop : Nat
  depth : Nat

/-- `uint16_t len = end - start`. -/
def lenOf (L : Leaf) : Nat := (L.stop - L.start) % 65536

/-- `startsWithL pre l`: `strncmp(l, pre, |pre|) == 0`. -/
def startsWithL : List Char → List Char → Bool
  | [], _ => true
  | _ :: _, [] => false
  | a :: as, b :: bs => if a = b then startsWithL as bs else false

/-- `containsSubL needle hay`: `strstr(hay, needle) != NULL`. -/
def containsSubL (needle : List Char) : List Char → Bool
  | [] => startsWithL needle []
  | c :: t => startsWithL needle (c :: t) || containsSubL needle t

/-- The driver's symbol-eater test: does the previously pushed token
absorb a leaf whose first byte is `b`? -/
def eatsMatch (p : Token) (b : Nat) : Bool :=
  (b = 59 && p.hasSemi) || (b = 44 && p.hasComma) || (b = 40 && p.hasParen) ||
    (b = 41 && p.hasClose) || (b = 42 && p.hasStar)

/-- The single atomic token of the driver's default path (type 2 when
the first byte is a digit, else 0). -/
def defaultTok (src : List Nat) (start len depth : Nat) (preSpace preBreak : Bool) : Token :=
  { rootId := murmur (srcSlice src start len),
    offset := start, length := len,
    ty := if isDigitB (byteAt src start) then 2 else 0, casing := 0,
    preSpace := preSpace, preBreak := preBreak, hasJoiner := false,
    depth := depth % 7 % 8,
    hasSemi := false, hasComma := false, hasParen := false, hasStar := false, hasClose := false }

/-- One iteration of the traversal driver on a leaf node: skip empty
leaves, apply the symbol-eater skip, then dispatch to the identifier
segmenter, the blob splitter, or the default single-token path. -/
def processLeaf (sgt : EModel → Nat → Nat → Bool) (src : List Nat) (st : St) (L : Leaf) : St :=
  let len := lenOf L
  let b := byteAt src (L.start - 1)
  let preSpace := decide (0 < L.start) && isSpaceB b && !(b = 10)
  let preBreak := decide (0 < L.start) && (b = 10)
  if len = 0 then st
  else
    let eaten :=
      match st.arena.getLast? with
      | some p => eatsMatch p (byteAt src L.start)
      | none => false
    if eaten then st
    else
      let isPre := startsWithL "preproc".data L.ty.data
      let isBlob := 32 < len && !isWordLocked (srcSlice src L.start len)
      if containsSubL "identifier".data L.ty.data then
        (processIdentifier sgt st src L.start len (L.depth % 7) (preSpace = true)).1
      else if L.ty = "comment" || L.ty = "string_literal" || isPre || isBlob then
        blobLoop src L.start len L.depth len 0 0 st
      else
        arenaPush src st (defaultTok src L.start len L.depth preSpace preBreak)

/-- The traversal driver: fold over the leaf stream in source order. -/
def runDriver (sgt : EModel → Nat → Nat → Bool) (src : List Nat) (st : St) (leaves : List Leaf) : St :=
  leaves.foldl (processLeaf sgt src) st

/-- Empty registry (fresh table, no log), as after `init_registry` with
no `nset_vocab.bin` present. -/
def reg0 : Reg := { table := fun _ => 0, log := [] }

/-- The model after `main`'s pre-training: 20 passes over the locked
vocabulary. -/
def pretrainPass (m : EModel) : Nat → EModel
  | 0 => m
  | n+1 => pretrainPass (VOCAB.foldl trainPairs m) n

/-- `global_model` after the pre-training loop in `main`. -/
def pretrainedModel : EModel := pretrainPass model0 20

/-- Process state at the start of `main`'s traversal of a file `src`
(fresh registry, arena capacity = file size, pre-trained model). -/
def initSt (src : List Nat) : St :=
  { arena := [], cap := src.length, reg := reg0, model := pretrainedModel }

/-- Surprise oracle that never fires (used for concrete runs on which
the C program never consults the surprise score, or on which any oracle
gives the refuting shape; see the doc comments at the use sites). -/
def sgtF : EModel → Nat → Nat → Bool := fun _ _ _ => false

/-- Surprise oracle that always fires. -/
def sgtT : EModel → Nat → Nat → Bool := fun _ _ _ => true

/-- Does a byte list contain an adjacent (lowercase, uppercase) pair? -/
def hasAdjLowerUpper : List Nat → Bool
  | a :: b :: r => (isLowerB a && isUpperB b) || hasAdjLowerUpper (b :: r)
  | _ => false

/-- A previously pushed token that absorbed a `*` (for the symbol-eater
witness). -/
def tokStar : Token :=
  { rootId := 0, offset := 0, length := 1, ty := 0, casing := 0,
    preSpace := false, preBreak := false, hasJoiner := false, depth := 0,
    hasSemi := false, hasComma := false, hasParen := false, hasStar := true, hasClose := false }

/-- A state whose last arena token absorbed a `*`. -/
def stStar : St := { arena := [tokStar], cap := 10, reg := reg0, model := model0 }

-- ==== helper lemmas ====

theorem mem_drop_append_one {α : Type} {x a : α} {l : List α} {K : Nat}
    (h : x ∈ (l ++ [a]).drop K) : x ∈ l.drop K ∨ x = a := by
  induction l generalizing K with
  | nil =>
    cases K with
    | zero => simpa using h
    | succ k =>
      exfalso
      simp only [List.nil_append, List.drop_succ_cons, List.drop_nil] at h
      exact (List.not_mem_nil x) h
  | cons hd tl ih =>
    cases K with
    | zero =>
      simp only [List.cons_append, List.drop_zero] at h ⊢
      rcases List.mem_cons.mp h with h1 | h1
      · exact Or.inl (h1 ▸ List.mem_cons_self _ _)
      · rcases @ih 0 (by simpa using h1) with h2 | h2
        · exact Or.inl (List.mem_cons_of_mem _ (by simpa using h2))
        · exact Or.inr h2
    | succ k =>
      simp only [List.cons_append, List.drop_succ_cons] at h ⊢
      exact ih h

theorem length_setLastJoiner (l : List Token) : (setLastJoiner l).length = l.length := by
  induction l with
  | nil => rfl
  | cons a tl ih =>
    cases tl with
    | nil => rfl
    | cons b r => simp only [setLastJoiner, List.length_cons] at ih ⊢; omega

theorem mem_drop_setLastJoiner {x : Token} {l : List Token} {K : Nat}
    (hx : x ∈ (setLastJoiner l).drop K) :
    x ∈ l.drop K ∨ ∃ u, u ∈ l.drop K ∧ x = joinerize u := by
  induction l generalizing K with
  | nil => simp [setLastJoiner] at hx
  | cons a tl ih =>
    cases tl with
    | nil =>
      cases K with
      | zero =>
        simp only [setLastJoiner, List.drop_zero, List.mem_singleton] at hx
        exact Or.inr ⟨a, by simp, hx⟩
      | succ k =>
        exfalso
        simp only [setLastJoiner, List.drop_succ_cons, List.drop_nil] at hx
        exact (List.not_mem_nil x) hx
    | cons b r =>
      cases K with
      | zero =>
        simp only [setLastJoiner, List.drop_zero] at hx ⊢
        rcases List.mem_cons.mp hx with h | h
        · exact Or.inl (h ▸ List.mem_cons_self _ _)
        · rcases @ih 0 (by simpa using h) with h2 | ⟨u, hu, he⟩
          · exact Or.inl (List.mem_cons_of_mem _ (by simpa using h2))
          · exact Or.inr ⟨u, List.mem_cons_of_mem _ (by simpa using hu), he⟩
      | succ k =>
        simp only [setLastJoiner, List.drop_succ_cons] at hx ⊢
        exact ih hx

theorem eatAdjust_offset (src : List Nat) (t : Token) : (eatAdjust src t).offset = t.offset := by
  simp only [eatAdjust]
  repeat' split
  all_goals rfl

theorem eatAdjust_length (src : List Nat) (t : Token) : (eatAdjust src t).length = t.length := by
  simp only [eatAdjust]
  repeat' split
  all_goals rfl

theorem eatAdjust_ty (src : List Nat) (t : Token) : (eatAdjust src t).ty = t.ty := by
  simp only [eatAdjust]
  repeat' split
  all_goals rfl

theorem eatAdjust_casing (src : List Nat) (t : Token) : (eatAdjust src t).casing = t.casing := by
  simp only [eatAdjust]
  repeat' split
  all_goals rfl

theorem eatAdjust_preSpace (src : List Nat) (t : Token) :
    (eatAdjust src t).preSpace = t.preSpace := by
  simp only [eatAdjust]
  repeat' split
  all_goals rfl

theorem eatAdjust_preBreak (src : List Nat) (t : Token) :
    (eatAdjust src t).preBreak = t.preBreak := by
  simp only [eatAdjust]
  repeat' split
  all_goals rfl

theorem eatAdjust_depth (src : List Nat) (t : Token) : (eatAdjust src t).depth = t.depth := by
  simp only [eatAdjust]
  repeat' split
  all_goals rfl

theorem arenaPush_arena (src : List Nat) (st : St) (t : Token) :
    (arenaPush src st t).arena = st.arena ∨
      (arenaPush src st t).arena = st.arena ++ [eatAdjust src t] := by
  unfold arenaPush
  split
  · exact Or.inl rfl
  · exact Or.inr rfl

theorem suffixP_push {P : Token → Prop} (src : List Nat) (st : St) (t : Token) (K : Nat)
    (h : ∀ u ∈ st.arena.drop K, P u) (ht : P (eatAdjust src t)) :
    ∀ u ∈ (arenaPush src st t).arena.drop K, P u := by
  rcases arenaPush_arena src st t with he | he <;> rw [he]
  · exact h
  · intro u hu
    rcases mem_drop_append_one hu with h1 | h1
    · exact h u h1
    · exact h1 ▸ ht

theorem suffixP_joiner {P : Token → Prop} (hJ : ∀ u, P u → P (joinerize u))
    (l : List Token) (K : Nat) (h : ∀ u ∈ l.drop K, P u) :
    ∀ u ∈ (setLastJoiner l).drop K, P u := by
  intro u hu
  rcases mem_drop_setLastJoiner hu with h1 | ⟨v, hv, he⟩
  · exact h u h1
  · exact he ▸ hJ v (h v hv)

theorem srcSlice_length_le (src : List Nat) (a b : Nat) : (srcSlice src a b).length ≤ b := by
  simpa [srcSlice] using List.length_take_le b (src.drop a)

theorem srcSlice_getElem (src : List Nat) (a b j : Nat) (h : j < (srcSlice src a b).length) :
    (srcSlice src a b)[j] = byteAt src (a + j) := by
  unfold srcSlice at h ⊢
  have h1 : j < (src.drop a).length := lt_of_lt_of_le h (by simpa using List.length_take_le b _)
  have h2 : a + j < src.length := by
    have := List.length_drop a src
    omega
  rw [List.getElem_take]
  rw [List.getElem_drop]
  unfold byteAt
  rw [List.getD_eq_getElem src 0 h2]

theorem mem_srcSlice {x : Nat} (src : List Nat) (a b : Nat) (h : x ∈ srcSlice src a b) :
    ∃ j, j < b ∧ byteAt src (a + j) = x := by
  obtain ⟨j, hj, he⟩ := List.mem_iff_getElem.mp h
  exact ⟨j, lt_of_lt_of_le hj (srcSlice_length_le src a b), by rw [← srcSlice_getElem src a b j hj, he]⟩

theorem not_mem_srcSlice_of_bytes {x : Nat} (src : List Nat) (a b : Nat)
    (h : ∀ j, j < b → byteAt src (a + j) ≠ x) : x ∉ srcSlice src a b := by
  intro hx
  obtain ⟨j, hj, he⟩ := mem_srcSlice src a b hx
  exact h j hj he

theorem segLoop_suffix {P : Token → Prop} (sq : Nat → Nat → Bool) (src : List Nat)
    (offset len depth : Nat) (pre : Bool)
    (hJ : ∀ u, P u → P (joinerize u))
    (hT : ∀ s e te, P (eatAdjust src (segTok src offset depth pre s e te))) :
    ∀ fuel i start te st K, (∀ u ∈ st.arena.drop K, P u) →
      ∀ u ∈ ((segLoop sq src offset len depth pre fuel i start te st).1.arena).drop K, P u := by
  intro fuel
  induction fuel with
  | zero =>
    intro i start te st K h u hu
    simp only [segLoop] at hu
    split at hu
    · exact suffixP_push src st _ K h (hT start len te) u hu
    · exact h u hu
  | succ fuel ih =>
    intro i start te st K h u hu
    simp only [segLoop] at hu
    split at hu
    · split at hu
      · exact ih (i+1) (i+1) (te+1) _ K
          (suffixP_joiner hJ _ K (suffixP_push src st _ K h (hT start i te))) u hu
      · split at hu
        · exact ih (i+1) (i+1) te _ K (suffixP_joiner hJ _ K h) u hu
        · exact ih (i+1) (i+1) te st K h u hu
    · split at hu
      · split at hu
        · exact ih (i+1) (i+1) (te+1) _ K
            (suffixP_push src st _ K h (hT start (i+1) te)) u hu
        · exact ih (i+1) start te st K h u hu
      · exact ih (i+1) start te st K h u hu

theorem blobLoop_suffix {P : Token → Prop} (src : List Nat) (start len d : Nat)
    (hMid : ∀ s e, s < e → P (eatAdjust src (blobMidTok src start d s e)))
    (hTail : ∀ s, s < len → P (eatAdjust src (blobTailTok src start len s))) :
    ∀ fuel i sub st K, (∀ u ∈ st.arena.drop K, P u) →
      ∀ u ∈ ((blobLoop src start len d fuel i sub st).arena).drop K, P u := by
  intro fuel
  induction fuel with
  | zero =>
    intro i sub st K h u hu
    simp only [blobLoop] at hu
    split at hu
    · next hs => exact suffixP_push src st _ K h (hTail sub hs) u hu
    · exact h u hu
  | succ fuel ih =>
    intro i sub st K h u hu
    simp only [blobLoop] at hu
    split at hu
    · split at hu
      · next hs =>
        exact ih (i+1) (i+1) _ K (suffixP_push src st _ K h (hMid sub i hs)) u hu
      · exact ih (i+1) (i+1) st K h u hu
    · exact ih (i+1) sub st K h u hu

theorem processIdentifier_suffix {P : Token → Prop} (sgt : EModel → Nat → Nat → Bool)
    (src : List Nat) (offset len depth : Nat) (pre : Bool)
    (hJ : ∀ u, P u → P (joinerize u))
    (hT : ∀ s e te, P (eatAdjust src (segTok src offset depth pre s e te)))
    (hL : P (eatAdjust src (lockedTok src offset len depth pre))) :
    ∀ (st : St) (K : Nat), (∀ u ∈ st.arena.drop K, P u) →
      ∀ u ∈ ((processIdentifier sgt st src offset len depth pre).1.arena).drop K, P u := by
  intro st K h u hu
  simp only [processIdentifier] at hu
  split at hu
  · exact suffixP_push src st _ K h hL u hu
  · refine segLoop_suffix _ src offset len depth pre hJ hT len 0 0 0 _ K ?_ u hu
    exact h

theorem segLoop_no95 (sq : Nat → Nat → Bool) (src : List Nat) (offset len depth : Nat)
    (pre : Bool) :
    ∀ fuel i start te st K,
      i + fuel = len → start ≤ i →
      (∀ j, start ≤ j → j < i → byteAt src (offset + j) ≠ 95) →
      (∀ u ∈ st.arena.drop K, (95 : Nat) ∉ srcSlice src u.offset u.length) →
      ∀ u ∈ ((segLoop sq src offset len depth pre fuel i start te st).1.arena).drop K,
        (95 : Nat) ∉ srcSlice src u.offset u.length := by
  intro fuel
  induction fuel with
  | zero =>
    intro i start te st K hfi hsi hinv h u hu
    simp only [segLoop] at hu
    split at hu
    · refine suffixP_push src st _ K h ?_ u hu
      rw [eatAdjust_offset, eatAdjust_length]
      simp only [segTok]
      apply not_mem_srcSlice_of_bytes
      intro j hj
      have hb := hinv (start + j) (by omega) (by omega)
      simpa [Nat.add_assoc] using hb
    · exact h u hu
  | succ fuel ih =>
    intro i start te st K hfi hsi hinv h u hu
    simp only [segLoop] at hu
    split at hu
    · split at hu
      · refine ih (i+1) (i+1) (te+1) _ K (by omega) (le_refl _) (fun j h1 h2 => by omega)
          (suffixP_joiner (fun v hv => hv) _ K (suffixP_push src st _ K h ?_)) u hu
        rw [eatAdjust_offset, eatAdjust_length]
        simp only [segTok]
        apply not_mem_srcSlice_of_bytes
        intro j hj
        have hb := hinv (start + j) (by omega) (by omega)
        simpa [Nat.add_assoc] using hb
      · split at hu
        · exact ih (i+1) (i+1) te _ K (by omega) (le_refl _) (fun j h1 h2 => by omega)
            (suffixP_joiner (fun v hv => hv) _ K h) u hu
        · exact ih (i+1) (i+1) te st K (by omega) (le_refl _) (fun j h1 h2 => by omega) h u hu
    · next h95 =>
      split at hu
      · split at hu
        · refine ih (i+1) (i+1) (te+1) _ K (by omega) (le_refl _) (fun j h1 h2 => by omega)
            (suffixP_push src st _ K h ?_) u hu
          rw [eatAdjust_offset, eatAdjust_length]
          simp only [segTok]
          apply not_mem_srcSlice_of_bytes
          intro j hj
          by_cases hji : start + j < i
          · have hb := hinv (start + j) (by omega) hji
            simpa [Nat.add_assoc] using hb
          · have hji2 : start + j = i := by omega
            rw [Nat.add_assoc, hji2]
            exact h95
        · refine ih (i+1) start te st K (by omega) (by omega) ?_ h u hu
          intro j h1 h2
          by_cases hji : j < i
          · exact hinv j h1 hji
          · have hji2 : j = i := by omega
            rw [hji2]
            exact h95
      · refine ih (i+1) start te st K (by omega) (by omega) ?_ h u hu
        intro j h1 h2
        by_cases hji : j < i
        · exact hinv j h1 hji
        · have hji2 : j = i := by omega
          rw [hji2]
          exact h95

theorem blobLoop_no95 (src : List Nat) (start len d : Nat) :
    ∀ fuel i sub st K,
      i + fuel = len → sub ≤ i →
      (∀ j, sub ≤ j → j < i →
        isSpaceB (byteAt src (start + j)) = false ∧ isPunctB (byteAt src (start + j)) = false) →
      (∀ u ∈ st.arena.drop K, (95 : Nat) ∉ srcSlice src u.offset u.length) →
      ∀ u ∈ ((blobLoop src start len d fuel i sub st).arena).drop K,
        (95 : Nat) ∉ srcSlice src u.offset u.length := by
  intro fuel
  induction fuel with
  | zero =>
    intro i sub st K hfi hsi hinv h u hu
    simp only [blobLoop] at hu
    split at hu
    · refine suffixP_push src st _ K h ?_ u hu
      rw [eatAdjust_offset, eatAdjust_length]
      simp only [blobTailTok]
      apply not_mem_srcSlice_of_bytes
      intro j hj
      rw [Nat.add_assoc]
      intro he
      have hb := (hinv (sub + j) (by omega) (by omega)).2
      rw [he] at hb
      exact absurd hb (by decide)
    · exact h u hu
  | succ fuel ih =>
    intro i sub st K hfi hsi hinv h u hu
    simp only [blobLoop] at hu
    split at hu
    · split at hu
      · refine ih (i+1) (i+1) _ K (by omega) (le_refl _) (fun j h1 h2 => by omega)
          (suffixP_push src st _ K h ?_) u hu
        rw [eatAdjust_offset, eatAdjust_length]
        simp only [blobMidTok]
        apply not_mem_srcSlice_of_bytes
        intro j hj
        rw [Nat.add_assoc]
        intro he
        have hb := (hinv (sub + j) (by omega) (by omega)).2
        rw [he] at hb
        exact absurd hb (by decide)
      · exact ih (i+1) (i+1) st K (by omega) (le_refl _) (fun j h1 h2 => by omega) h u hu
    · next hnsp =>
      refine ih (i+1) sub st K (by omega) (by omega) ?_ h u hu
      intro j h1 h2
      by_cases hji : j < i
      · exact hinv j h1 hji
      · have hj2 : j = i := by omega
        rw [hj2]
        simp only [Bool.or_eq_true, not_or, Bool.not_eq_true] at hnsp
        exact ⟨hnsp.1, hnsp.2⟩

theorem hasAdj_exists (l : List Nat) (h : hasAdjLowerUpper l = true) :
    ∃ j, j + 1 < l.length ∧ isLowerB (l.getD j 0) = true ∧ isUpperB (l.getD (j+1) 0) = true := by
  induction l with
  | nil => simp [hasAdjLowerUpper] at h
  | cons a tl ih =>
    cases tl with
    | nil => simp [hasAdjLowerUpper] at h
    | cons b r =>
      simp only [hasAdjLowerUpper, Bool.or_eq_true, Bool.and_eq_true] at h
      rcases h with ⟨h1, h2⟩ | h
      · exact ⟨0, by simp, by simpa using h1, by simpa using h2⟩
      · obtain ⟨j, hj, h1, h2⟩ := ih h
        refine ⟨j+1, ?_, ?_, ?_⟩
        · simp only [List.length_cons] at hj ⊢
          omega
        · simpa [List.getD_cons_succ] using h1
        · simpa [List.getD_cons_succ] using h2

theorem srcSlice_getD (src : List Nat) (a b j : Nat) (h : j < (srcSlice src a b).length) :
    (srcSlice src a b).getD j 0 = byteAt src (a + j) := by
  rw [List.getD_eq_getElem _ _ h, srcSlice_getElem]

theorem no_adj_of_bytes (src : List Nat) (a b : Nat)
    (h : ∀ j, j + 1 < b →
      ¬(isLowerB (byteAt src (a + j)) = true ∧ isUpperB (byteAt src (a + j + 1)) = true)) :
    hasAdjLowerUpper (srcSlice src a b) = false := by
  cases hA : hasAdjLowerUpper (srcSlice src a b)
  · rfl
  · exfalso
    obtain ⟨j, hj, h1, h2⟩ := hasAdj_exists _ hA
    have hjb : j + 1 < b := lt_of_lt_of_le hj (srcSlice_length_le src a b)
    rw [srcSlice_getD _ _ _ _ (by omega)] at h1
    rw [srcSlice_getD _ _ _ _ hj] at h2
    exact h j hjb ⟨h1, by rw [← Nat.add_assoc] at h2; exact h2⟩

theorem segSoftSplit_false_not_camel {sq : Nat → Nat → Bool} {src : List Nat}
    {offset len start i : Nat} (hs : segSoftSplit sq src offset len start i = false) :
    ¬(isLowerB (byteAt src (offset + i)) = true ∧ isUpperB (byteAt src (offset + i + 1)) = true) := by
  rintro ⟨h1, h2⟩
  simp [segSoftSplit, h1, h2] at hs

theorem segLoop_noCamel (sq : Nat → Nat → Bool) (src : List Nat) (offset len depth : Nat)
    (pre : Bool) :
    ∀ fuel i start te st K,
      i + fuel = len → start ≤ i →
      (∀ j, start ≤ j → j + 1 ≤ i → j + 1 < len →
        ¬(isLowerB (byteAt src (offset + j)) = true ∧
            isUpperB (byteAt src (offset + j + 1)) = true)) →
      (∀ u ∈ st.arena.drop K, hasAdjLowerUpper (srcSlice src u.offset u.length) = false) →
      ∀ u ∈ ((segLoop sq src offset len depth pre fuel i start te st).1.arena).drop K,
        hasAdjLowerUpper (srcSlice src u.offset u.length) = false := by
  intro fuel
  induction fuel with
  | zero =>
    intro i start te st K hfi hsi hinv h u hu
    simp only [segLoop] at hu
    split at hu
    · refine suffixP_push src st _ K h ?_ u hu
      rw [eatAdjust_offset, eatAdjust_length]
      simp only [segTok]
      apply no_adj_of_bytes
      intro j hj
      have hb := hinv (start + j) (by omega) (by omega) (by omega)
      simpa [Nat.add_assoc] using hb
    · exact h u hu
  | succ fuel ih =>
    intro i start te st K hfi hsi hinv h u hu
    simp only [segLoop] at hu
    split at hu
    · split at hu
      · refine ih (i+1) (i+1) (te+1) _ K (by omega) (le_refl _) (fun j h1 h2 h3 => by omega)
          (suffixP_joiner (fun v hv => hv) _ K (suffixP_push src st _ K h ?_)) u hu
        rw [eatAdjust_offset, eatAdjust_length]
        simp only [segTok]
        apply no_adj_of_bytes
        intro j hj
        have hb := hinv (start + j) (by omega) (by omega) (by omega)
        simpa [Nat.add_assoc] using hb
      · split at hu
        · exact ih (i+1) (i+1) te _ K (by omega) (le_refl _) (fun j h1 h2 h3 => by omega)
            (suffixP_joiner (fun v hv => hv) _ K h) u hu
        · exact ih (i+1) (i+1) te st K (by omega) (le_refl _) (fun j h1 h2 h3 => by omega) h u hu
    · split at hu
      · next hlen1 =>
        split at hu
        · refine ih (i+1) (i+1) (te+1) _ K (by omega) (le_refl _) (fun j h1 h2 h3 => by omega)
            (suffixP_push src st _ K h ?_) u hu
          rw [eatAdjust_offset, eatAdjust_length]
          simp only [segTok]
          apply no_adj_of_bytes
          intro j hj
          have hb := hinv (start + j) (by omega) (by omega) (by omega)
          simpa [Nat.add_assoc] using hb
        · next hnsp =>
          refine ih (i+1) start te st K (by omega) (by omega) ?_ h u hu
          intro j h1 h2 h3
          by_cases hji : j + 1 ≤ i
          · exact hinv j h1 hji h3
          · have hj2 : j = i := by omega
            rw [hj2]
            have hf : segSoftSplit sq src offset len start i = false := by
              cases hx : segSoftSplit sq src offset len start i
              · rfl
              · exact absurd hx hnsp
            exact segSoftSplit_false_not_camel hf
      · refine ih (i+1) start te st K (by omega) (by omega) ?_ h u hu
        intro j h1 h2 h3
        by_cases hji : j + 1 ≤ i
        · exact hinv j h1 hji h3
        · have hj2 : j = i := by omega
          omega

theorem ccmp_eq : ∀ {a b : List Nat}, ccmp a b = Ordering.eq → (0 : Nat) ∉ a → (0 : Nat) ∉ b → a = b := by
  intro a
  induction a with
  | nil =>
    intro b hc h0a h0b
    cases b with
    | nil => rfl
    | cons y ys =>
      simp only [ccmp] at hc
      split at hc
      · next hy => exact absurd (hy ▸ List.mem_cons_self _ _) h0b
      · cases hc
  | cons x xs ih =>
    intro b hc h0a h0b
    cases b with
    | nil =>
      simp only [ccmp] at hc
      split at hc
      · next hx => exact absurd (hx ▸ List.mem_cons_self _ _) h0a
      · cases hc
    | cons y ys =>
      simp only [ccmp] at hc
      split at hc
      · next hxy =>
        split at hc
        · next hx => exact absurd (hx ▸ List.mem_cons_self _ _) h0a
        · rw [hxy, ih hc (fun hm => h0a (List.mem_cons_of_mem _ hm))
            (fun hm => h0b (List.mem_cons_of_mem _ hm))]
      · split at hc <;> cases hc

theorem bsearchAux_eq (key : List Nat) :
    ∀ fuel l u i, bsearchAux key fuel l u = some i →
      ccmp key (VOCAB.getD i []) = Ordering.eq ∧ i < u := by
  intro fuel
  induction fuel with
  | zero => intro l u i h; cases h
  | succ fuel ih =>
    intro l u i h
    simp only [bsearchAux] at h
    split at h
    · next hlu =>
      split at h
      · obtain ⟨h1, h2⟩ := ih _ _ _ h
        exact ⟨h1, by omega⟩
      · obtain ⟨h1, h2⟩ := ih _ _ _ h
        exact ⟨h1, h2⟩
      · next hcc =>
        cases h
        exact ⟨hcc, by omega⟩
    · cases h

theorem vocab_no_zero : ∀ w ∈ VOCAB, (0 : Nat) ∉ w := by decide

theorem vocab95_not_found :
    ∀ w ∈ VOCAB, (95 : Nat) ∈ w → bsearchAux w 64 0 VOCAB.length = none := by decide

theorem tolowerB_eq_zero {b : Nat} (h : tolowerB b = 0) : b = 0 := by
  unfold tolowerB at h
  split at h
  · omega
  · exact h

theorem locked_no95 (bs : List Nat) (hL : isWordLocked bs = true) (h0 : (0 : Nat) ∉ bs) :
    (95 : Nat) ∉ bs := by
  intro h95
  unfold isWordLocked at hL
  split at hL
  · cases hL
  · cases hx : bsearchAux (bs.map tolowerB) 64 0 VOCAB.length with
    | none => rw [hx] at hL; cases hL
    | some i =>
      obtain ⟨hcc, hiu⟩ := bsearchAux_eq _ _ _ _ _ hx
      have h0k : (0 : Nat) ∉ bs.map tolowerB := by
        intro hk
        obtain ⟨b, hb, he⟩ := List.mem_map.mp hk
        exact absurd (tolowerB_eq_zero he ▸ hb) h0
      have hw : VOCAB.getD i [] ∈ VOCAB := by
        rw [List.getD_eq_getElem _ _ hiu]
        exact List.getElem_mem hiu
      have h0w : (0 : Nat) ∉ VOCAB.getD i [] := vocab_no_zero _ hw
      have hkey : bs.map tolowerB = VOCAB.getD i [] := ccmp_eq hcc h0k h0w
      have h95k : (95 : Nat) ∈ bs.map tolowerB := List.mem_map.mpr ⟨95, h95, by decide⟩
      have hn := vocab95_not_found _ hw (hkey ▸ h95k)
      rw [hkey, hn] at hx
      cases hx

theorem add_mod_shift (n idx k : Nat) : (idx + (k + 1)) % n = ((idx + 1) % n + k) % n := by
  rw [Nat.mod_add_mod]
  congr 1
  omega

theorem add_mod_ne (n idx m : Nat) (hidx : idx < n) (h0 : 0 < m) (hm : m < n) :
    (idx + m) % n ≠ idx := by
  intro he
  rcases Nat.lt_or_ge (idx + m) n with hlt | hge
  · rw [Nat.mod_eq_of_lt hlt] at he
    omega
  · have h1 : (idx + m) % n = (idx + m - n) % n := Nat.mod_eq_sub_mod hge
    have h2 : idx + m - n < n := by omega
    rw [h1, Nat.mod_eq_of_lt h2] at he
    omega

theorem cover_mod (n idx j : Nat) (hn : 0 < n) (hidx : idx < n) (hj : j < n) :
    ∃ k, k < n ∧ (idx + k) % n = j := by
  refine ⟨(j + n - idx) % n, Nat.mod_lt _ hn, ?_⟩
  rw [Nat.add_mod_mod]
  have h1 : idx + (j + n - idx) = j + n := by omega
  rw [h1, Nat.add_mod_right, Nat.mod_eq_of_lt hj]

theorem probeSeen_isSome (tbl : Nat → Nat) (id : Nat) :
    ∀ fuel idx, idx < NTAB →
      (∃ k, k < fuel ∧ (tbl ((idx + k) % NTAB) = 0 ∨ tbl ((idx + k) % NTAB) = id)) →
      (probeSeen tbl id idx fuel).isSome := by
  intro fuel
  induction fuel with
  | zero =>
    intro idx _ h
    obtain ⟨k, hk, _⟩ := h
    omega
  | succ fuel ih =>
    intro idx hidx h
    obtain ⟨k, hk, hstop⟩ := h
    simp only [probeSeen]
    split
    · simp
    · split
      · simp
      · next h0 hid =>
        apply ih _ (Nat.mod_lt _ (by decide))
        have hk0 : k ≠ 0 := by
          intro he
          rw [he, Nat.add_zero, Nat.mod_eq_of_lt hidx] at hstop
          tauto
        refine ⟨k - 1, by omega, ?_⟩
        have he : (idx + k) % NTAB = ((idx + 1) % NTAB + (k - 1)) % NTAB := by
          have hk1 : idx + k = idx + ((k - 1) + 1) := by omega
          rw [hk1, add_mod_shift]
        rw [← he]
        exact hstop

theorem probeFree_isSome (tbl : Nat → Nat) :
    ∀ fuel idx, idx < NTAB →
      (∃ k, k < fuel ∧ tbl ((idx + k) % NTAB) = 0) →
      (probeFree tbl idx fuel).isSome := by
  intro fuel
  induction fuel with
  | zero =>
    intro idx _ h
    obtain ⟨k, hk, _⟩ := h
    omega
  | succ fuel ih =>
    intro idx hidx h
    obtain ⟨k, hk, hstop⟩ := h
    simp only [probeFree]
    split
    · simp
    · next h0 =>
      apply ih _ (Nat.mod_lt _ (by decide))
      have hk0 : k ≠ 0 := by
        intro he
        rw [he, Nat.add_zero, Nat.mod_eq_of_lt hidx] at hstop
        exact h0 hstop
      refine ⟨k - 1, by omega, ?_⟩
      have he : (idx + k) % NTAB = ((idx + 1) % NTAB + (k - 1)) % NTAB := by
        have hk1 : idx + k = idx + ((k - 1) + 1) := by omega
        rw [hk1, add_mod_shift]
      rw [← he]
      exact hstop

theorem probeFree_none (tbl : Nat → Nat) (h : ∀ j, j < NTAB → tbl j ≠ 0) :
    ∀ fuel idx, idx < NTAB → probeFree tbl idx fuel = none := by
  intro fuel
  induction fuel with
  | zero => intro idx _; rfl
  | succ fuel ih =>
    intro idx hidx
    simp only [probeFree]
    rw [if_neg (h idx hidx)]
    exact ih _ (Nat.mod_lt _ (by decide))

theorem probeSeen_none (tbl : Nat → Nat) (id : Nat) (h : ∀ j, j < NTAB → tbl j ≠ 0)
    (hid : ∀ j, j < NTAB → tbl j ≠ id) :
    ∀ fuel idx, idx < NTAB → probeSeen tbl id idx fuel = none := by
  intro fuel
  induction fuel with
  | zero => intro idx _; rfl
  | succ fuel ih =>
    intro idx hidx
    simp only [probeSeen]
    rw [if_neg (h idx hidx), if_neg (hid idx hidx)]
    exact ih _ (Nat.mod_lt _ (by decide))

theorem probe_insert (id : Nat) (hid : id ≠ 0) :
    ∀ fuel idx (tbl : Nat → Nat), fuel ≤ NTAB → idx < NTAB →
      probeSeen tbl id idx fuel = some false →
      ∃ k, k < fuel ∧
        probeFree tbl idx fuel = some ((idx + k) % NTAB) ∧
        probeSeen (fun j => if j = (idx + k) % NTAB then id else tbl j) id idx fuel = some true := by
  intro fuel
  induction fuel with
  | zero => intro idx tbl _ _ h; cases h
  | succ fuel ih =>
    intro idx tbl hf hidx h
    simp only [probeSeen] at h
    split at h
    · next h0 =>
      refine ⟨0, by omega, ?_, ?_⟩
      · simp only [probeFree]
        rw [if_pos h0, Nat.add_zero, Nat.mod_eq_of_lt hidx]
      · have he : (idx + 0) % NTAB = idx := by rw [Nat.add_zero, Nat.mod_eq_of_lt hidx]
        simp only [probeSeen, he]
        simp [hid]
    · split at h
      · cases h
      · next h0 hidn =>
        obtain ⟨k', hk', hfree', hseen'⟩ :=
          ih ((idx + 1) % NTAB) tbl (by omega) (Nat.mod_lt _ (by decide)) h
        have heq : (idx + (k' + 1)) % NTAB = ((idx + 1) % NTAB + k') % NTAB := add_mod_shift _ _ _
        refine ⟨k' + 1, by omega, ?_, ?_⟩
        · simp only [probeFree]
          rw [if_neg h0, hfree', heq]
        · have hne : (idx + (k' + 1)) % NTAB ≠ idx := by
            apply add_mod_ne NTAB idx (k' + 1) hidx (by omega)
            have hlt : k' + 1 ≤ NTAB := by omega
            have hN : fuel + 1 ≤ 4194304 := hf
            omega
          have hT : (if idx = (idx + (k' + 1)) % NTAB then id else tbl idx) = tbl idx :=
            if_neg (Ne.symm hne)
          simp only [probeSeen, hT]
          rw [if_neg h0, if_neg hidn, heq]
          exact hseen'

/-- C10: the linear probe loops of `has_seen_id` and of the insertion
path of `register_token` terminate (within `NTAB` iterations, hence the
fuel `NTAB` of the model is exact) whenever at least one table slot
holds 0.  Without that precondition the insertion probe never terminates
(for any fuel, any start slot, hence for every id), and `has_seen_id`
never terminates for any id that is absent from the table. -/
theorem probe_termination_iff_zero_slot :
    (∀ (tbl : Nat → Nat) (id : Nat), (∃ j, j < NTAB ∧ tbl j = 0) →
      (hasSeenId tbl id).isSome ∧ (probeFree tbl (id % NTAB) NTAB).isSome)
    ∧ (∀ tbl : Nat → Nat, (∀ j, j < NTAB → tbl j ≠ 0) →
      (∀ idx fuel, idx < NTAB → probeFree tbl idx fuel = none)
      ∧ (∀ id, (∀ j, j < NTAB → tbl j ≠ id) →
          ∀ idx fuel, idx < NTAB → probeSeen tbl id idx fuel = none)) := by
  constructor
  · intro tbl id h
    obtain ⟨j, hj, hz⟩ := h
    have hidx : id % NTAB < NTAB := Nat.mod_lt _ (by decide)
    obtain ⟨k, hk, hcov⟩ := cover_mod NTAB (id % NTAB) j (by decide) hidx hj
    constructor
    · exact probeSeen_isSome tbl id NTAB (id % NTAB) hidx
        ⟨k, hk, Or.inl (by rw [hcov]; exact hz)⟩
    · exact probeFree_isSome tbl NTAB (id % NTAB) hidx ⟨k, hk, by rw [hcov]; exact hz⟩
  · intro tbl hfull
    exact ⟨fun idx fuel hidx => probeFree_none tbl hfull fuel idx hidx,
      fun id hid idx fuel hidx => probeSeen_none tbl id hfull hid fuel idx hidx⟩

/-- Witness for C10 at the empty table and id 5. -/
theorem probe_termination_witness :
    (hasSeenId (fun _ => 0) 5).isSome ∧ (probeFree (fun _ => 0) (5 % NTAB) NTAB).isSome :=
  probe_termination_iff_zero_slot.1 (fun _ => 0) 5 ⟨0, by decide, rfl⟩

/-- C4 (amended to ids ≠ 0): registering a seen id changes nothing;
registering an unseen id appends exactly one record
`(id, min(len,255), first min(len,255) bytes)`, makes the id seen, and
makes any further `register` call with the same id a no-op, so no
nonzero id is ever logged twice. -/
theorem registerToken_seen (r : Reg) (id : Nat) (text : List Nat) (len : Nat)
    (hs : hasSeenId r.table id = some true) : registerToken r id text len = r := by
  unfold registerToken
  rw [hs]

theorem register_nonzero_spec :
    ∀ (r : Reg) (id : Nat) (text : List Nat) (len : Nat), id ≠ 0 →
      (hasSeenId r.table id = some true → registerToken r id text len = r)
      ∧ (hasSeenId r.table id = some false →
          (registerToken r id text len).log =
            r.log ++ [(id, min len 255, text.take (min len 255))]
          ∧ hasSeenId (registerToken r id text len).table id = some true
          ∧ ∀ text2 len2, registerToken (registerToken r id text len) id text2 len2 =
              registerToken r id text len) := by
  intro r id text len hid
  constructor
  · intro hs
    exact registerToken_seen r id text len hs
  · intro hs
    obtain ⟨k, hk, hfree, hseen⟩ :=
      probe_insert id hid NTAB (id % NTAB) r.table (le_refl _) (Nat.mod_lt _ (by decide)) hs
    have hreg : registerToken r id text len =
        { table := fun j => if j = (id % NTAB + k) % NTAB then id else r.table j,
          log := r.log ++ [(id, min len 255, text.take (min len 255))] } := by
      unfold registerToken
      rw [hs, hfree]
    have h2 : hasSeenId (registerToken r id text len).table id = some true := by
      rw [hreg]
      exact hseen
    refine ⟨by rw [hreg], h2, ?_⟩
    intro text2 len2
    exact registerToken_seen _ id text2 len2 h2

/-- Witness for C4 at a fresh registry and id 5. -/
theorem register_nonzero_witness :
    (registerToken reg0 5 [1, 2] 2).log = reg0.log ++ [(5, min 2 255, [1, 2].take (min 2 255))]
    ∧ hasSeenId (registerToken reg0 5 [1, 2] 2).table 5 = some true :=
  ⟨((register_nonzero_spec reg0 5 [1, 2] 2 (by decide)).2 (by decide)).1,
    ((register_nonzero_spec reg0 5 [1, 2] 2 (by decide)).2 (by decide)).2.1⟩

/-- C4 counterexample: id 0 collides with the empty-slot sentinel.  On a
fresh registry, `register(0, ...)` appends a record but does not make
the id seen, and a second call appends a second record: the claim's
"never appended twice" and "inserted into the set" both fail at id 0. -/
theorem register_zero_id_counterexample :
    (registerToken (registerToken reg0 0 [] 0) 0 [] 0).log = [(0, 0, []), (0, 0, [])]
    ∧ hasSeenId (registerToken reg0 0 [] 0).table 0 = some false := by
  constructor
  · decide
  · decide

theorem segSoftSplit_entropy (sq : Nat → Nat → Bool) (src : List Nat)
    (offset len start i : Nat)
    (hsp : segSoftSplit sq src offset len start i = true)
    (hcam : (isLowerB (byteAt src (offset + i)) && isUpperB (byteAt src (offset + i + 1))) = false) :
    isWordLocked (srcSlice src (offset + start) (i + 1 - start)) = true ∨
      (4 ≤ i + 1 - start ∧ 3 ≤ len - (i + 1)) := by
  simp only [segSoftSplit, hcam] at hsp
  rw [if_neg (by decide : ¬(false = true))] at hsp
  split at hsp
  · simpa [Bool.or_eq_true, Bool.and_eq_true, decide_eq_true_eq] using hsp
  · exact absurd hsp (by decide)

theorem segLoop_guard (sq : Nat → Nat → Bool) (src : List Nat) (offset len depth : Nat)
    (pre : Bool) :
    ∀ fuel i start te st (f : Frag),
      f ∈ (segLoop sq src offset len depth pre fuel i start te st).2 →
      f.kind = Kind.entropy →
      isWordLocked (srcSlice src (offset + f.fstart) (f.fstop - f.fstart)) = true ∨
        (4 ≤ f.fstop - f.fstart ∧ 3 ≤ len - f.fstop) := by
  intro fuel
  induction fuel with
  | zero =>
    intro i start te st f hf hk
    simp only [segLoop] at hf
    split at hf
    · simp only [List.mem_singleton] at hf
      rw [hf] at hk
      cases hk
    · simp at hf
  | succ fuel ih =>
    intro i start te st f hf hk
    simp only [segLoop] at hf
    split at hf
    · split at hf
      · simp only [List.mem_cons] at hf
        rcases hf with hf | hf
        · rw [hf] at hk
          cases hk
        · exact ih (i+1) (i+1) (te+1) _ f hf hk
      · split at hf
        · exact ih (i+1) (i+1) te _ f hf hk
        · exact ih (i+1) (i+1) te st f hf hk
    · split at hf
      · split at hf
        · next hsp =>
          simp only [List.mem_cons] at hf
          rcases hf with hf | hf
          · rw [hf] at hk
            by_cases hcam : (isLowerB (byteAt src (offset + i)) &&
                isUpperB (byteAt src (offset + i + 1))) = true
            · rw [if_pos hcam] at hk
              cases hk
            · have hcf : (isLowerB (byteAt src (offset + i)) &&
                  isUpperB (byteAt src (offset + i + 1))) = false := by
                cases hx : (isLowerB (byteAt src (offset + i)) &&
                    isUpperB (byteAt src (offset + i + 1)))
                · rfl
                · exact absurd hx hcam
              rw [hf]
              exact segSoftSplit_entropy sq src offset len start i hsp hcf
          · exact ih (i+1) (i+1) (te+1) _ f hf hk
        · exact ih (i+1) start te st f hf hk
      · exact ih (i+1) start te st f hf hk

/-- C7: every entropy-driven split of the identifier segmenter (camel
and underscore splits excluded) has a locked left fragment, or a left
fragment of length ≥ 4 and a right remainder of length ≥ 3.  The
statement holds for every outcome `sgt` of the float surprise
comparison, hence for the one the C program computes. -/
theorem entropy_split_guard :
    ∀ (sgt : EModel → Nat → Nat → Bool) (st : St) (src : List Nat)
      (offset len depth : Nat) (pre : Bool) (f : Frag),
      f ∈ (processIdentifier sgt st src offset len depth pre).2 →
      f.kind = Kind.entropy →
      isWordLocked (srcSlice src (offset + f.fstart) (f.fstop - f.fstart)) = true ∨
        (4 ≤ f.fstop - f.fstart ∧ 3 ≤ len - f.fstop) := by
  intro sgt st src offset len depth pre f hf hk
  simp only [processIdentifier] at hf
  split at hf
  · simp at hf
  · exact segLoop_guard _ src offset len depth pre len 0 0 0 _ f hf hk

/-- Witness for C7: on `abcdefg` with an always-firing surprise oracle
the segmenter records the entropy split `[0, 4)` and the guard holds. -/
theorem entropy_split_guard_witness :
    isWordLocked (srcSlice (strBytes "abcdefg") (0 + 0) (4 - 0)) = true ∨
      (4 ≤ 4 - 0 ∧ 3 ≤ 7 - 4) :=
  entropy_split_guard sgtT (initSt (strBytes "abcdefg")) (strBytes "abcdefg") 0 7 0 false
    ⟨0, 4, Kind.entropy⟩ (by decide) rfl

/-- C8: the driver's symbol-eater skip decision looks only at the leaf's
first byte and the metadata bits of the most recently pushed token: when
they match, the whole leaf (of any length and whichever occurrence of
the byte it is) is dropped and the state is completely unchanged. -/
theorem symbol_eater_skip_drops_leaf :
    ∀ (sgt : EModel → Nat → Nat → Bool) (src : List Nat) (st : St) (L : Leaf) (p : Token),
      st.arena.getLast? = some p → lenOf L ≠ 0 →
      eatsMatch p (byteAt src L.start) = true →
      processLeaf sgt src st L = st := by
  intro sgt src st L p hlast hlen hm
  simp only [processLeaf, hlast]
  rw [if_neg hlen]
  simp [hm]

/-- Witness for C8: a two-byte `*=` leaf after a token that absorbed a
`*` is dropped whole. -/
theorem symbol_eater_skip_witness :
    processLeaf sgtF (strBytes "x *= y") stStar ⟨"*=", 2, 4, 0⟩ = stStar :=
  symbol_eater_skip_drops_leaf sgtF (strBytes "x *= y") stStar ⟨"*=", 2, 4, 0⟩ tokStar
    rfl (by decide) (by decide)

/-- C9: every token pushed by the identifier segmenter (locked or not)
and every blob fragment has `pre_break = 0`; only the driver's default
path ever writes `pre_break`. -/
theorem segmenter_blob_tokens_no_preBreak :
    (∀ (sgt : EModel → Nat → Nat → Bool) (st : St) (src : List Nat)
      (offset len depth : Nat) (pre : Bool),
      ∀ t ∈ ((processIdentifier sgt st src offset len depth pre).1.arena).drop st.arena.length,
        t.preBreak = false)
    ∧ (∀ (src : List Nat) (start len d : Nat) (st : St),
      ∀ t ∈ ((blobLoop src start len d len 0 0 st).arena).drop st.arena.length,
        t.preBreak = false) := by
  constructor
  · intro sgt st src offset len depth pre t ht
    refine @processIdentifier_suffix (fun u => u.preBreak = false) sgt src offset len depth pre
      (fun u hu => hu) ?_ ?_ st st.arena.length ?_ t ht
    · intro s e te
      simp only [eatAdjust_preBreak]
      rfl
    · simp only [eatAdjust_preBreak]
      rfl
    · intro u hu
      rw [List.drop_length] at hu
      cases hu
  · intro src start len d st t ht
    refine @blobLoop_suffix (fun u => u.preBreak = false) src start len d ?_ ?_
      len 0 0 st st.arena.length ?_ t ht
    · intro s e _
      simp only [eatAdjust_preBreak]
      rfl
    · intro s _
      simp only [eatAdjust_preBreak]
      rfl
    · intro u hu
      rw [List.drop_length] at hu
      cases hu

/-- Witness for C9: the first token the segmenter emits for `my_var`
has `pre_break = 0`. -/
theorem pre_break_witness :
    ((((processIdentifier sgtF (initSt (strBytes "my_var")) (strBytes "my_var") 0 6 0
        false).1.arena).drop (initSt (strBytes "my_var")).arena.length).getD 0
        default).preBreak = false :=
  segmenter_blob_tokens_no_preBreak.1 sgtF (initSt (strBytes "my_var")) (strBytes "my_var")
    0 6 0 false _ (by decide)

/-- C2 (amended): no token pushed by the identifier segmenter (on a
NUL-free span, as C sources are) and no blob fragment ever has a `_` in
its byte span; the counterexample shows the driver's default path does
not share this invariant. -/
theorem no_underscore_in_segmenter_and_blob_tokens :
    (∀ (sgt : EModel → Nat → Nat → Bool) (st : St) (src : List Nat)
      (offset len depth : Nat) (pre : Bool), (0 : Nat) ∉ srcSlice src offset len →
      ∀ t ∈ ((processIdentifier sgt st src offset len depth pre).1.arena).drop st.arena.length,
        (95 : Nat) ∉ srcSlice src t.offset t.length)
    ∧ (∀ (src : List Nat) (start len d : Nat) (st : St),
      ∀ t ∈ ((blobLoop src start len d len 0 0 st).arena).drop st.arena.length,
        (95 : Nat) ∉ srcSlice src t.offset t.length) := by
  constructor
  · intro sgt st src offset len depth pre h0 t ht
    simp only [processIdentifier] at ht
    split at ht
    · next hLk =>
      refine @suffixP_push (fun u => (95 : Nat) ∉ srcSlice src u.offset u.length) src st _
        st.arena.length ?_ ?_ t ht
      · intro u hu
        rw [List.drop_length] at hu
        cases hu
      · simp only [eatAdjust_offset, eatAdjust_length, lockedTok]
        exact locked_no95 _ hLk h0
    · refine segLoop_no95 _ src offset len depth pre len 0 0 0 _ st.arena.length
        (Nat.zero_add len) (Nat.le_refl 0) (fun j h1 h2 => by omega) ?_ t ht
      intro u hu
      rw [List.drop_length] at hu
      cases hu
  · intro src start len d st t ht
    refine blobLoop_no95 src start len d len 0 0 st st.arena.length (Nat.zero_add len)
      (Nat.le_refl 0) (fun j h1 h2 => by omega) ?_ t ht
    intro u hu
    rw [List.drop_length] at hu
    cases hu

/-- C2 counterexample: on source `size_t x;` the `size_t` leaf (a
`primitive_type`, a realistic tree-sitter-c parse) takes the driver's
default path and is emitted as one token whose span contains `_`
(byte 95).  The surprise oracle is never consulted on this run. -/
theorem underscore_span_counterexample :
    ((runDriver sgtF (strBytes "size_t x;") (initSt (strBytes "size_t x;"))
        [⟨"primitive_type", 0, 6, 2⟩]).arena.map
      (fun t => srcSlice (strBytes "size_t x;") t.offset t.length)) = [strBytes "size_t"]
    ∧ (95 : Nat) ∈ strBytes "size_t" := ⟨by decide, by decide⟩

/-- Witness for C2 on the identifier `my_var`. -/
theorem no_underscore_witness :
    (95 : Nat) ∉ srcSlice (strBytes "my_var")
      (((((processIdentifier sgtF (initSt (strBytes "my_var")) (strBytes "my_var") 0 6 0
        false).1.arena).drop (initSt (strBytes "my_var")).arena.length).getD 0 default).offset)
      (((((processIdentifier sgtF (initSt (strBytes "my_var")) (strBytes "my_var") 0 6 0
        false).1.arena).drop (initSt (strBytes "my_var")).arena.length).getD 0 default).length) :=
  no_underscore_in_segmenter_and_blob_tokens.1 sgtF (initSt (strBytes "my_var"))
    (strBytes "my_var") 0 6 0 false (by decide) _ (by decide)

/-- C6 (amended): no token the identifier segmenter emits for a
NON-locked identifier contains an adjacent (lowercase, uppercase) pair;
the counterexample shows locked words (matched case-insensitively) and
blob/default leaves can carry such pairs. -/
theorem segmenter_nonlocked_no_camel_pair :
    ∀ (sgt : EModel → Nat → Nat → Bool) (st : St) (src : List Nat)
      (offset len depth : Nat) (pre : Bool),
      isWordLocked (srcSlice src offset len) = false →
      ∀ t ∈ ((processIdentifier sgt st src offset len depth pre).1.arena).drop st.arena.length,
        hasAdjLowerUpper (srcSlice src t.offset t.length) = false := by
  intro sgt st src offset len depth pre hnl t ht
  simp only [processIdentifier] at ht
  split at ht
  · next hLk =>
    rw [hnl] at hLk
    cases hLk
  · refine segLoop_noCamel _ src offset len depth pre len 0 0 0 _ st.arena.length
      (Nat.zero_add len) (Nat.le_refl 0) (fun j h1 h2 h3 => by omega) ?_ t ht
    intro u hu
    rw [List.drop_length] at hu
    cases hu

/-- C6 counterexample: the identifier `inT` case-folds to the locked
word `int`, so the segmenter emits it whole — and its span contains the
adjacent lowercase-uppercase pair `nT`. -/
theorem camel_pair_counterexample :
    ((processIdentifier sgtF (initSt (strBytes "inT")) (strBytes "inT") 0 3 0 false).1.arena.map
      (fun t => srcSlice (strBytes "inT") t.offset t.length)) = [strBytes "inT"]
    ∧ hasAdjLowerUpper (strBytes "inT") = true := ⟨by decide, by decide⟩

/-- Witness for C6 on the non-locked identifier `myVar`. -/
theorem segmenter_no_camel_witness :
    hasAdjLowerUpper (srcSlice (strBytes "myVar")
      (((((processIdentifier sgtF (initSt (strBytes "myVar")) (strBytes "myVar") 0 5 0
        false).1.arena).drop (initSt (strBytes "myVar")).arena.length).getD 0 default).offset)
      (((((processIdentifier sgtF (initSt (strBytes "myVar")) (strBytes "myVar") 0 5 0
        false).1.arena).drop (initSt (strBytes "myVar")).arena.length).getD 0 default).length))
      = false :=
  segmenter_nonlocked_no_camel_pair sgtF (initSt (strBytes "myVar")) (strBytes "myVar")
    0 5 0 false (by decide) _ (by decide)

/-- C3 (amended): every emitted token records the leaf's nesting depth
reduced modulo 7 (not modulo 8), except the final fragment of a
blob-class leaf, whose depth field is left at 0 (that fragment is the
unique one whose span ends at the leaf's end). -/
theorem depth_field_mod7_except_blob_tail :
    ∀ (sgt : EModel → Nat → Nat → Bool) (src : List Nat) (st : St) (L : Leaf),
      ∀ t ∈ ((processLeaf sgt src st L).arena).drop st.arena.length,
        t.depth = L.depth % 7 ∨
          (t.ty = 1 ∧ t.depth = 0 ∧ t.offset + t.length = L.start + lenOf L) := by
  intro sgt src st L t ht
  simp only [processLeaf] at ht
  split at ht
  · rw [List.drop_length] at ht
    cases ht
  · split at ht
    · rw [List.drop_length] at ht
      cases ht
    · split at ht
      · refine @processIdentifier_suffix
          (fun u => u.depth = L.depth % 7 ∨
            (u.ty = 1 ∧ u.depth = 0 ∧ u.offset + u.length = L.start + lenOf L))
          sgt src _ _ _ _ (fun u hu => hu) ?_ ?_ st st.arena.length ?_ t ht
        · intro s e te
          left
          simp only [eatAdjust_depth, segTok]
          omega
        · left
          simp only [eatAdjust_depth, lockedTok]
          omega
        · intro u hu
          rw [List.drop_length] at hu
          cases hu
      · split at ht
        · refine @blobLoop_suffix
            (fun u => u.depth = L.depth % 7 ∨
              (u.ty = 1 ∧ u.depth = 0 ∧ u.offset + u.length = L.start + lenOf L))
            src _ _ _ ?_ ?_ _ _ _ st st.arena.length ?_ t ht
          · intro s e _
            left
            simp only [eatAdjust_depth, blobMidTok]
            omega
          · intro s hs
            right
            refine ⟨?_, ?_, ?_⟩
            · simp only [eatAdjust_ty, blobTailTok]
            · simp only [eatAdjust_depth, blobTailTok]
            · simp only [eatAdjust_offset, eatAdjust_length, blobTailTok]
              omega
          · intro u hu
            rw [List.drop_length] at hu
            cases hu
        · refine @suffixP_push
            (fun u => u.depth = L.depth % 7 ∨
              (u.ty = 1 ∧ u.depth = 0 ∧ u.offset + u.length = L.start + lenOf L))
            src st _ st.arena.length ?_ ?_ t ht
          · intro u hu
            rw [List.drop_length] at hu
            cases hu
          · left
            simp only [eatAdjust_depth, defaultTok]
            omega

/-- C3 counterexample: a default-path leaf at nesting depth 7 gets
depth field `7 % 7 = 0`, not `7 % 8 = 7` as the claim requires. -/
theorem depth_mod8_counterexample :
    ((processLeaf sgtF (strBytes "int") (initSt (strBytes "int"))
        ⟨"primitive_type", 0, 3, 7⟩).arena.map (fun t => t.depth)) = [0]
    ∧ (0 : Nat) ≠ 7 % 8 := ⟨by decide, by decide⟩

/-- Witness for C3 at the same depth-7 leaf. -/
theorem depth_field_witness :
    (((processLeaf sgtF (strBytes "int") (initSt (strBytes "int"))
        ⟨"primitive_type", 0, 3, 7⟩).arena.drop (initSt (strBytes "int")).arena.length).getD 0
        default).depth = (⟨"primitive_type", 0, 3, 7⟩ : Leaf).depth % 7 ∨
      ((((processLeaf sgtF (strBytes "int") (initSt (strBytes "int"))
        ⟨"primitive_type", 0, 3, 7⟩).arena.drop (initSt (strBytes "int")).arena.length).getD 0
        default).ty = 1 ∧
        (((processLeaf sgtF (strBytes "int") (initSt (strBytes "int"))
        ⟨"primitive_type", 0, 3, 7⟩).arena.drop (initSt (strBytes "int")).arena.length).getD 0
        default).depth = 0 ∧
        (((processLeaf sgtF (strBytes "int") (initSt (strBytes "int"))
        ⟨"primitive_type", 0, 3, 7⟩).arena.drop (initSt (strBytes "int")).arena.length).getD 0
        default).offset +
        (((processLeaf sgtF (strBytes "int") (initSt (strBytes "int"))
        ⟨"primitive_type", 0, 3, 7⟩).arena.drop (initSt (strBytes "int")).arena.length).getD 0
        default).length = (⟨"primitive_type", 0, 3, 7⟩ : Leaf).start +
          lenOf ⟨"primitive_type", 0, 3, 7⟩) :=
  depth_field_mod7_except_blob_tail sgtF (strBytes "int") (initSt (strBytes "int"))
    ⟨"primitive_type", 0, 3, 7⟩ _ (by decide)

/-- C1: `uint32_t` is in `LOCKED_VOCAB`, yet `is_word_locked` misses it
(the C array is unsorted, so `bsearch`'s half-interval search fails) and
the segmenter splits it at the underscore into `uint32` and `t` instead
of emitting one whole-span token.  The two-token shape is forced by the
underscore split alone, for every surprise-comparison outcome. -/
theorem locked_vocab_word_is_segmented :
    strBytes "uint32_t" ∈ VOCAB
    ∧ isWordLocked (strBytes "uint32_t") = false
    ∧ ((processIdentifier sgtF (initSt (strBytes "uint32_t")) (strBytes "uint32_t") 0 8 0
        false).1.arena.map (fun t => srcSlice (strBytes "uint32_t") t.offset t.length)) =
      [strBytes "uint32", strBytes "t"] := ⟨by decide, by decide, by decide⟩

/-- C5: on the blob-class comment leaf `//a b` at nesting depth 1, the
mid fragment `a` carries the supplied depth (1) but the final fragment
`b` carries depth 0 — the C code never assigns `meta.depth` in the tail
push at `main.c:348-354`. -/
theorem blob_tail_fragment_depth_dropped :
    ((processLeaf sgtF (strBytes "//a b") (initSt (strBytes "//a b"))
        ⟨"comment", 0, 5, 1⟩).arena.map (fun t => (t.offset, t.length, t.ty, t.depth))) =
      [(2, 1, 1, 1), (4, 1, 1, 0)] := by decide
